import Mathlib

/-!
Shallow embedding of `src/specific_grep.cpp` (spaiq/specific-grep).

Modelling conventions:
* A file on disk is a pair `(path, content)` where `content : Option (List String)`
  is `none` when the file cannot be opened for reading (the code prints a
  diagnostic and skips it) and `some lines` when `std::getline` yields `lines`.
* `std::thread::id` is modelled as the worker's index (a `Nat`); the spec's
  design notes prescribe exactly this decoupling.
* `std::string::find(pat) != npos` is modelled by `listFind` below.
* `int` line numbers are modelled as `Int` (`NULL` in the sentinel is `0`).
* `std::sort` (which returns an unspecified order among tie elements) is
  modelled by the insertion sort `sortLe`; every property proved below is
  independent of the tie order except where a concrete evaluation is shown,
  which then exhibits one legal ordering.
-/

namespace SpecificGrep

/-- A search-result tuple `(thread_id, file_path, line_number, line)` of
`searchFilesForString`. -/
structure MatchRec where
  wid : Nat
  path : String
  lineNo : Int
  text : String
deriving DecidableEq, Repr

/-- A file visible to the scanner: its path, and `some` list of lines when the
`std::ifstream` open succeeds, `none` when it fails. -/
def FileEntry : Type := String × Option (List String)

instance : DecidableEq FileEntry := by
  unfold FileEntry; infer_instance

/-- Does `pat` occur at the start of `hay`?  (Helper for `listFind`.) -/
def hasPrefixL : List Char → List Char → Bool
  | _, [] => true
  | [], _ :: _ => false
  | h :: hs, p :: ps => h = p && hasPrefixL hs ps

/-- Model of `line.find(search_string) != std::string::npos`: does `pat`
occur as a contiguous substring of `hay`?  (`find("")` is `0`, so the empty
pattern is found in every string.) -/
def listFind : List Char → List Char → Bool
  | [], pat => hasPrefixL [] pat
  | h :: t, pat => hasPrefixL (h :: t) pat || listFind t pat

/-- `line.find(search_string) != npos` on `String`s. -/
def strContains (line pat : String) : Bool :=
  listFind line.data pat.data

/-- The inner `while (std::getline(file, line))` loop of
`searchFilesForString`: `n` is the value of `line_number` before the loop
iteration (the code pre-increments, so the first line gets number `n + 1`). -/
def scanLinesAux (pat path : String) (wid : Nat) : Nat → List String → List MatchRec
  | _, [] => []
  | n, l :: ls =>
    (if strContains l pat then [⟨wid, path, (n : Int) + 1, l⟩] else []) ++
      scanLinesAux pat path wid (n + 1) ls

/-- One iteration of the outer `for` loop of `searchFilesForString`: an
unreadable file (`!file.good()`) contributes no records (only a diagnostic). -/
def scanFile (pat : String) (wid : Nat) (f : FileEntry) : List MatchRec :=
  match f.2 with
  | some lines => scanLinesAux pat f.1 wid 0 lines
  | none => []

/-- The sentinel record `(thread_id, "", NULL, "")` appended when a worker's
subset produced no matches. -/
def sentinelRec (wid : Nat) : MatchRec := ⟨wid, "", 0, ""⟩

/-- `searchFilesForString`: scan every file of the subset, and if no record at
all was produced, return the single sentinel record. -/
def searchFilesForString (pat : String) (wid : Nat) (files : List FileEntry) :
    List MatchRec :=
  let results := files.flatMap (scanFile pat wid)
  if results.isEmpty then [sentinelRec wid] else results

/-- The file subset handed to worker `i` in `searchDirectoryForString`:
`start_index = i * files_per_thread`,
`end_index = (i+1 == thread_count) ? size : (i+1) * files_per_thread`,
with `files_per_thread = size / thread_count`. -/
def filesSubset {α : Type} (files : List α) (T i : Nat) : List α :=
  let base := files.length / T
  let s := i * base
  let e := if i + 1 = T then files.length else (i + 1) * base
  (files.take e).drop s

/-- The flat record list collected by `searchDirectoryForString` for a
positive worker count: worker `i` scans `filesSubset files T i`, and the
per-worker result vectors are concatenated in worker order. -/
def searchDirectoryRecords (pat : String) (files : List FileEntry) (T : Nat) :
    List MatchRec :=
  (List.range T).flatMap fun i => searchFilesForString pat i (filesSubset files T i)

/-! ### A deterministic model of `std::sort`

`std::sort` produces some ordering that is sorted with respect to the strict
comparator; among comparator-equivalent elements the order is unspecified.
`sortLe` (insertion sort on the reflexive closure `le b a = !lt a b` of the
comparator) produces one such legal ordering. -/

/-- Insert `a` into `l` before the first element `b` with `le a b`. -/
def insertLe {α : Type} (le : α → α → Bool) (a : α) : List α → List α
  | [] => [a]
  | b :: l => if le a b then a :: b :: l else b :: insertLe le a l

/-- Insertion sort with a boolean "may precede" relation. -/
def sortLe {α : Type} (le : α → α → Bool) : List α → List α
  | [] => []
  | a :: l => insertLe le a (sortLe le l)

theorem insertLe_perm {α : Type} (le : α → α → Bool) (a : α) (l : List α) :
    List.Perm (insertLe le a l) (a :: l) := by
  induction l with
  | nil => simp [insertLe]
  | cons b t ih =>
    by_cases h : le a b = true
    · simp [insertLe, h]
    · simp only [insertLe, h, if_false]
      exact (ih.cons b).trans (List.Perm.swap a b t)

theorem sortLe_perm {α : Type} (le : α → α → Bool) (l : List α) :
    List.Perm (sortLe le l) l := by
  induction l with
  | nil => simp [sortLe]
  | cons a t ih => exact (insertLe_perm le a (sortLe le t)).trans (ih.cons a)

theorem mem_insertLe {α : Type} {le : α → α → Bool} {a x : α} {l : List α} :
    x ∈ insertLe le a l ↔ x = a ∨ x ∈ l := by
  rw [(insertLe_perm le a l).mem_iff, List.mem_cons]

theorem insertLe_pairwise {α : Type} {le : α → α → Bool}
    (htrans : ∀ a b c, le a b = true → le b c = true → le a c = true)
    (htotal : ∀ a b, le a b = true ∨ le b a = true)
    {a : α} {l : List α} (hl : l.Pairwise fun x y => le x y = true) :
    (insertLe le a l).Pairwise fun x y => le x y = true := by
  induction l with
  | nil => simp [insertLe]
  | cons b t ih =>
    rcases List.pairwise_cons.mp hl with ⟨hb, ht⟩
    by_cases h : le a b = true
    · simp only [insertLe, h, if_true]
      refine List.pairwise_cons.mpr ⟨?_, hl⟩
      intro x hx
      rcases List.mem_cons.mp hx with rfl | hx
      · exact h
      · exact htrans a b x h (hb x hx)
    · simp only [insertLe, h, if_false]
      refine List.pairwise_cons.mpr ⟨?_, ih ht⟩
      intro x hx
      rcases mem_insertLe.mp hx with h1 | hx
      · rw [h1]
        rcases htotal a b with h' | h'
        · exact absurd h' h
        · exact h'
      · exact hb x hx

theorem sortLe_pairwise {α : Type} {le : α → α → Bool}
    (htrans : ∀ a b c, le a b = true → le b c = true → le a c = true)
    (htotal : ∀ a b, le a b = true ∨ le b a = true)
    (l : List α) :
    (sortLe le l).Pairwise fun x y => le x y = true := by
  induction l with
  | nil => simp [sortLe]
  | cons a t ih => exact insertLe_pairwise htrans htotal ih

theorem mem_sortLe {α : Type} {le : α → α → Bool} {x : α} {l : List α} :
    x ∈ sortLe le l ↔ x ∈ l :=
  (sortLe_perm le l).mem_iff

/-! ### `writeResultsToFile` -/

/-- The filter `!file_path.empty() && line_number && !line_content.empty()`
guarding insertion into `file_patterns_map`. -/
def keepRecord (r : MatchRec) : Bool :=
  (r.path != "") && (r.lineNo != 0) && (r.text != "")

/-- The records that `writeResultsToFile` inserts into `file_patterns_map`. -/
def keptRecords (rs : List MatchRec) : List MatchRec := rs.filter keepRecord

/-- The key set of `file_patterns_map` (a `std::map<std::string, …>` iterates
its distinct keys in ascending string order). -/
def mapKeys (rs : List MatchRec) : List String :=
  sortLe (fun a b : String => !(decide (b < a))) (((keptRecords rs).map (·.path)).dedup)

/-- The `(line_number, line_content)` entries pushed for file `p`, in record
order (the order of `push_back` calls). -/
def filePatterns (rs : List MatchRec) (p : String) : List (Int × String) :=
  ((keptRecords rs).filter (fun r => r.path == p)).map (fun r => (r.lineNo, r.text))

/-- The per-file `std::sort` by `std::get<0>(lhs) < std::get<0>(rhs)`:
line numbers ascending. -/
def sortedPatterns (rs : List MatchRec) (p : String) : List (Int × String) :=
  sortLe (fun a b => decide (a.1 ≤ b.1)) (filePatterns rs p)

/-- `sorted_files`: the map entries sorted by
`lhs.second.size() > rhs.second.size()` (descending number of patterns). -/
def sortedResultFiles (rs : List MatchRec) : List (String × List (Int × String)) :=
  sortLe (fun a b => decide (b.2.length ≤ a.2.length))
    ((mapKeys rs).map fun p => (p, sortedPatterns rs p))

/-- The lines of the results report:
`file_path << ":" << line_number << ": " << line_content` per pattern. -/
def resultsLines (rs : List MatchRec) : List String :=
  (sortedResultFiles rs).flatMap fun g =>
    g.2.map fun pr => g.1 ++ ":" ++ toString pr.1 ++ ": " ++ pr.2

/-! ### `writeLogToFile` -/

/-- The file names pushed for thread `w` into `threads_to_files[w]`, in record
order (the sentinel contributes its empty `file_path`). -/
def logGroup (rs : List MatchRec) (w : Nat) : List String :=
  (rs.filter (fun r => r.wid == w)).map (·.path)

/-- The distinct thread ids in `std::map` (ascending) iteration order. -/
def logWids (rs : List MatchRec) : List Nat :=
  sortLe (fun a b => decide (a ≤ b)) ((rs.map (·.wid)).dedup)

/-- `thread_file_pairs` before sorting: the map converted to a vector. -/
def threadFilePairs (rs : List MatchRec) : List (Nat × List String) :=
  (logWids rs).map fun w => (w, logGroup rs w)

/-- The comparator passed to `std::sort` in `writeLogToFile`
(`lhs.second[0]` is the group's first file name; groups are never empty
by construction, so `headD ""` reads exactly that element). -/
def logPairLt (a b : Nat × List String) : Bool :=
  if (a.2.headD "" == "") && (b.2.headD "" != "") then false
  else if (a.2.headD "" != "") && (b.2.headD "" == "") then true
  else decide (b.2.length < a.2.length)

/-- The non-strict "may precede" closure of `logPairLt`, which any
`std::sort`-legal output is sorted by. -/
def logPairLe (a b : Nat × List String) : Bool := !(logPairLt b a)

/-- `thread_file_pairs` after the `std::sort`. -/
def logSortedPairs (rs : List MatchRec) : List (Nat × List String) :=
  sortLe logPairLe (threadFilePairs rs)

/-- `output_file.seekp(-1, std::ios_base::end)` followed by `<< std::endl`:
the last character already written is overwritten (dropped from the line). -/
def chopLast (s : String) : String := ⟨s.data.dropLast⟩

/-- The inner loop of `writeLogToFile`: each file name written followed by a
comma. -/
def writeNames : List String → String
  | [] => ""
  | f :: fs => f ++ "," ++ writeNames fs

/-- One log line: `thread_id << ":"`, then every file name followed by a
comma, then the seek-back that erases the final character written. -/
def logLine (w : Nat) (fs : List String) : String :=
  chopLast (toString w ++ ":" ++ writeNames fs)

/-- The lines of the log report, in sorted pair order. -/
def logLines (rs : List MatchRec) : List String :=
  (logSortedPairs rs).map fun g => logLine g.1 g.2

/-- Explicit separator-joining with no trailing separator, the formulation
used by the spec's format claims. -/
def joinComma : List String → String
  | [] => ""
  | [a] => a
  | a :: b :: t => a ++ "," ++ joinComma (b :: t)

/-! ### `isValidFilename` and `main` -/

/-- The character class `[A-Za-z0-9_\-. ]` exactly as the spec's filename
claim states it (`'A' = 65`, `'Z' = 90`, `'a' = 97`, `'z' = 122`,
`'0' = 48`, `'9' = 57`). -/
def allowedCharSpec (c : Char) : Prop :=
  (65 ≤ c.toNat ∧ c.toNat ≤ 90) ∨ (97 ≤ c.toNat ∧ c.toNat ≤ 122) ∨
    (48 ≤ c.toNat ∧ c.toNat ≤ 57) ∨ c = '_' ∨ c = '-' ∨ c = '.' ∨ c = ' '

instance (c : Char) : Decidable (allowedCharSpec c) := by
  unfold allowedCharSpec; infer_instance

/-- An ECMAScript `\w` character: `[A-Za-z0-9_]`. -/
def isWordChar (c : Char) : Bool := c.isAlpha || c.isDigit || c == '_'

/-- A character matched by the regex `[^\w\-. ]` of `isValidFilename`. -/
def isInvalidChar (c : Char) : Bool :=
  !(isWordChar c || c == '-' || c == '.' || c == ' ')

/-- `isValidFilename`: `!std::regex_search(filename, "[^\w\-. ]")`. -/
def isValidFilename (s : String) : Bool := !(s.data.any isInvalidChar)

/-- Accumulate the leading run of decimal digits (`std::stoi` stops at the
first non-digit). -/
def digitsVal : List Char → Nat → Nat
  | [], acc => acc
  | c :: cs, acc => if c.isDigit then digitsVal cs (acc * 10 + (c.toNat - 48)) else acc

/-- Read a non-empty leading digit run, `none` when the first character is
not a digit. -/
def readNatDigits : List Char → Option Nat
  | [] => none
  | c :: cs => if c.isDigit then some (digitsVal (c :: cs) 0) else none

/-- Model of `std::stoi`: optional sign, then at least one decimal digit;
`none` models the thrown `std::invalid_argument` caught by `main`.  (Leading
whitespace and out-of-range values are not exercised by any claim.) -/
def stoiModel (s : String) : Option Int :=
  match s.data with
  | '-' :: rest => (readNatDigits rest).map fun n => -(n : Int)
  | '+' :: rest => (readNatDigits rest).map fun n => (n : Int)
  | l => (readNatDigits l).map fun n => (n : Int)

/-- `searchDirectoryForString` with the CLI's `int thread_count`.
`thread_count == 0` makes the code compute `files_to_search.size() / 0` —
division by zero, undefined behaviour that aborts the process in practice —
modelled as `none`.  For a negative count the loop
`for (int i = 0; i < thread_count; ++i)` never runs its body, so no worker is
spawned and the flat record list is empty. -/
def searchDirectoryForString (pat : String) (files : List FileEntry) (T : Int) :
    Option (List MatchRec × Nat) :=
  if T = 0 then none
  else some (searchDirectoryRecords pat files T.toNat, files.length)

/-- What one run of the program leaves behind: the process exit status, the
contents of the two report files when they were opened and written
(`none` = not written), and the diagnostics printed to `std::cerr`. -/
structure Outcome where
  exitCode : Nat
  resultsFile : Option (List String)
  logFile : Option (List String)
  errors : List String
deriving DecidableEq, Repr

/-- Model of `main` on the inputs the claims exercise: the search string, the
directory's files, the values of the `-t`, `-l`, `-r` options (`none` =
option absent, default used), and whether each output file can be opened for
writing.  Returns `none` when the run hits undefined behaviour (the
`thread_count == 0` division by zero).  Mirrors `main`'s control flow: an
invalid filename or unparsable thread count returns exit status 1 before any
scan; open failure of a report file only prints a diagnostic inside the
writer, which `return`s, after which `main` continues and exits 0. -/
def runMainModel (pat : String) (files : List FileEntry)
    (threadArg logArg resultArg : Option String)
    (canOpenResults canOpenLog : Bool) : Option Outcome :=
  let logName := logArg.getD "specific_grep"
  if !isValidFilename logName then
    some ⟨1, none, none, ["Error: invalid log filename"]⟩
  else
    let resName := resultArg.getD "specific_grep"
    if !isValidFilename resName then
      some ⟨1, none, none, ["Error: invalid result filename"]⟩
    else
      match (threadArg.map stoiModel).getD (some 4) with
      | none => some ⟨1, none, none, ["Error: invalid thread count"]⟩
      | some t =>
        match searchDirectoryForString pat files t with
        | none => none
        | some (rs, _) =>
          let resPart : Option (List String) × List String :=
            if canOpenResults then (some (resultsLines rs), [])
            else (none, ["Could not open output file"])
          let logPart : Option (List String) × List String :=
            if canOpenLog then (some (logLines rs), [])
            else (none, ["Unable to open file for writing: " ++ logName])
          some ⟨0, resPart.1, logPart.1, resPart.2 ++ logPart.2⟩

/-! ## Theorems -/

theorem hasPrefixL_iff : ∀ (h p : List Char), hasPrefixL h p = true ↔ p <+: h
  | _, [] => by simp [hasPrefixL]
  | [], _ :: _ => by simp [hasPrefixL]
  | a :: as, c :: cs => by
    simp only [hasPrefixL, Bool.and_eq_true, decide_eq_true_eq, List.cons_prefix_cons]
    rw [hasPrefixL_iff as cs]
    exact and_congr_left fun _ => eq_comm

theorem listFind_iff : ∀ (h p : List Char), listFind h p = true ↔ p <:+: h
  | [], p => by
    rw [listFind, hasPrefixL_iff, List.infix_nil, List.prefix_nil]
  | a :: t, p => by
    rw [listFind, Bool.or_eq_true, hasPrefixL_iff, listFind_iff t p, List.infix_cons_iff]

theorem strContains_iff (l p : String) : strContains l p = true ↔ p.data <:+: l.data :=
  listFind_iff l.data p.data

theorem scanLinesAux_eq (pat path : String) (wid : Nat) :
    ∀ (lines : List String) (n : Nat),
      scanLinesAux pat path wid n lines =
        (List.enumFrom n lines).filterMap fun pr =>
          if strContains pr.2 pat then some ⟨wid, path, (pr.1 : Int) + 1, pr.2⟩ else none
  | [], n => by simp [scanLinesAux]
  | l :: ls, n => by
    rw [scanLinesAux, List.enumFrom_cons, List.filterMap_cons, scanLinesAux_eq pat path wid ls]
    by_cases h : strContains l pat = true
    · simp [h]
    · simp [h]

/-- C1: for every readable file of a worker's subset and every search string,
the scanner emits exactly one record per line that contains the search string
as a literal substring (`<:+:` on the character lists), carrying the line's
1-indexed position and its full text; other lines yield nothing; and the
partition-level result is the concatenation of the per-file records unless
that concatenation is empty. -/
theorem scanner_emits_one_record_per_matching_line
    (pat path : String) (wid : Nat) (lines : List String) (files : List FileEntry) :
    (scanFile pat wid (path, some lines) =
      lines.enum.filterMap fun pr =>
        if strContains pr.2 pat then some ⟨wid, path, (pr.1 : Int) + 1, pr.2⟩ else none)
    ∧ (∀ l p : String, strContains l p = true ↔ p.data <:+: l.data)
    ∧ searchFilesForString pat wid files =
        (if files.flatMap (scanFile pat wid) = [] then [sentinelRec wid]
         else files.flatMap (scanFile pat wid)) := by
  refine ⟨?_, strContains_iff, ?_⟩
  · rw [show scanFile pat wid (path, some lines) = scanLinesAux pat path wid 0 lines from rfl,
      scanLinesAux_eq, List.enum]
  · rw [searchFilesForString]
    by_cases h : files.flatMap (scanFile pat wid) = []
    · simp [h]
    · simp [h, List.isEmpty_iff]

theorem flatMapSlices {α : Type} (l : List α) (base : Nat) :
    ∀ k : Nat,
      (List.range k).flatMap (fun i => (l.drop (i * base)).take base) ++ l.drop (k * base) = l
  | 0 => by simp
  | k + 1 => by
    rw [List.range_succ, List.flatMap_append, List.append_assoc, List.flatMap_cons,
      List.flatMap_nil, List.append_nil, Nat.succ_mul, ← List.drop_drop,
      List.take_append_drop]
    exact flatMapSlices l base k

theorem filesSubset_mid {α : Type} (files : List α) (T i : Nat) (hi : i + 1 < T) :
    filesSubset files T i = (files.drop (i * (files.length / T))).take (files.length / T) := by
  rw [filesSubset]
  have hne : ¬ (i + 1 = T) := by omega
  simp only [hne, if_false]
  rw [List.drop_take, Nat.succ_mul, Nat.add_sub_cancel_left]

theorem filesSubset_last {α : Type} (files : List α) (T : Nat) (hT : 1 ≤ T) :
    filesSubset files T (T - 1) = files.drop ((T - 1) * (files.length / T)) := by
  rw [filesSubset]
  have he : T - 1 + 1 = T := by omega
  simp only [he, if_true, List.take_length]

/-- C2: the partitioner gives worker `i < T - 1` the slice
`[i*(F/T), (i+1)*(F/T))` of the file list, the last worker the slice
`[(T-1)*(F/T), F)`; the concatenation of the `T` slices in worker order is
the original list (hence order preserved, no duplicates, full coverage), the
first `T - 1` slices have length `F / T`, and the last has length
`F / T + F % T` — it alone absorbs the remainder. -/
theorem partitioner_contiguous_cover {α : Type} (files : List α) (T : Nat) (hT : 1 ≤ T) :
    ((List.range T).flatMap (fun i => filesSubset files T i) = files)
    ∧ (∀ i, i + 1 < T →
        filesSubset files T i = (files.drop (i * (files.length / T))).take (files.length / T))
    ∧ filesSubset files T (T - 1) = files.drop ((T - 1) * (files.length / T))
    ∧ (∀ i, i + 1 < T → (filesSubset files T i).length = files.length / T)
    ∧ (filesSubset files T (T - 1)).length = files.length / T + files.length % T := by
  have hTbase : T * (files.length / T) ≤ files.length := by
    rw [Nat.mul_comm]
    exact Nat.div_mul_le_self files.length T
  have hlen : ∀ i, i + 1 < T → (filesSubset files T i).length = files.length / T := by
    intro i hi
    rw [filesSubset_mid files T i hi, List.length_take, List.length_drop]
    have h1 : (i + 1) * (files.length / T) ≤ T * (files.length / T) :=
      Nat.mul_le_mul_right _ (by omega)
    rw [Nat.succ_mul] at h1
    obtain ⟨d, hd⟩ : ∃ d, files.length / T = d := ⟨_, rfl⟩
    rw [hd] at h1 ⊢
    rw [hd] at hTbase
    obtain ⟨s, hs⟩ : ∃ s, i * d = s := ⟨_, rfl⟩
    obtain ⟨t, ht⟩ : ∃ t, T * d = t := ⟨_, rfl⟩
    rw [hs] at h1 ⊢
    rw [ht] at h1 hTbase
    omega
  refine ⟨?_, fun i hi => filesSubset_mid files T i hi, filesSubset_last files T hT,
    hlen, ?_⟩
  · have hsplit : T = (T - 1) + 1 := by omega
    rw [hsplit, List.range_succ, List.flatMap_append, List.flatMap_cons, List.flatMap_nil,
      List.append_nil, ← hsplit, filesSubset_last files T hT]
    have hcongr : (List.range (T - 1)).flatMap (fun i => filesSubset files T i)
        = (List.range (T - 1)).flatMap fun i =>
            (files.drop (i * (files.length / T))).take (files.length / T) := by
      rw [List.flatMap, List.flatMap]
      apply congrArg
      apply List.map_congr_left
      intro i hi
      rw [List.mem_range] at hi
      exact filesSubset_mid files T i (by omega)
    rw [hcongr]
    exact flatMapSlices files (files.length / T) (T - 1)
  · rw [filesSubset_last files T hT, List.length_drop]
    have hdm : T * (files.length / T) + files.length % T = files.length :=
      Nat.div_add_mod files.length T
    have h2 : (T - 1) * (files.length / T) + files.length / T = T * (files.length / T) := by
      rw [← Nat.succ_mul]
      congr 1
      omega
    obtain ⟨d, hd⟩ : ∃ d, files.length / T = d := ⟨_, rfl⟩
    obtain ⟨m, hm⟩ : ∃ m, files.length % T = m := ⟨_, rfl⟩
    rw [hd] at h2 ⊢
    rw [hd, hm] at hdm
    rw [hm]
    obtain ⟨s, hs⟩ : ∃ s, (T - 1) * d = s := ⟨_, rfl⟩
    obtain ⟨t, ht⟩ : ∃ t, T * d = t := ⟨_, rfl⟩
    rw [hs] at h2 ⊢
    rw [ht] at h2 hdm
    omega

/-- Witness: the partitioner theorem applied to five files and three workers. -/
theorem partitioner_contiguous_cover_witness :
    (1 ≤ 3)
    ∧ (List.range 3).flatMap (fun i => filesSubset [10, 20, 30, 40, 50] 3 i)
        = [10, 20, 30, 40, 50] :=
  ⟨by decide, (partitioner_contiguous_cover [10, 20, 30, 40, 50] 3 (by decide)).1⟩

theorem pairwise_sortLe_imp {α : Type} {le : α → α → Bool} {R : α → α → Prop}
    (htrans : ∀ a b c, le a b = true → le b c = true → le a c = true)
    (htotal : ∀ a b, le a b = true ∨ le b a = true)
    (himp : ∀ a b, le a b = true → R a b) (l : List α) :
    (sortLe le l).Pairwise R :=
  (sortLe_pairwise htrans htotal l).imp fun h => himp _ _ h

theorem sortedPatterns_pairwise_le (rs : List MatchRec) (p : String) :
    (sortedPatterns rs p).Pairwise fun a b => a.1 ≤ b.1 := by
  apply pairwise_sortLe_imp
  · intro a b c hab hbc
    rw [decide_eq_true_eq] at *
    omega
  · intro a b
    rcases Int.le_total a.1 b.1 with h | h
    · exact Or.inl (by rw [decide_eq_true_eq]; exact h)
    · exact Or.inr (by rw [decide_eq_true_eq]; exact h)
  · intro a b h
    rw [decide_eq_true_eq] at h
    exact h

theorem mem_sortedResultFiles {rs : List MatchRec} {g : String × List (Int × String)}
    (hg : g ∈ sortedResultFiles rs) :
    ∃ p, p ∈ (keptRecords rs).map (·.path) ∧ g = (p, sortedPatterns rs p) := by
  rw [sortedResultFiles, mem_sortLe] at hg
  rcases List.mem_map.mp hg with ⟨p, hp, rfl⟩
  rw [mapKeys, mem_sortLe, List.mem_dedup] at hp
  exact ⟨p, hp, rfl⟩

/-- C3 (amended): the results report lists files in non-increasing order of
match count; within each file the emitted `(line_number, line_text)` entries
are non-decreasing by line number — strictly increasing whenever no file has
two kept records with the same line number, which holds for scanner-produced
record lists — and the emitted lines have the shape
`file_path ++ ":" ++ line_number ++ ": " ++ line_text`. -/
theorem results_report_order (rs : List MatchRec) :
    ((sortedResultFiles rs).Pairwise fun a b => b.2.length ≤ a.2.length)
    ∧ (∀ g ∈ sortedResultFiles rs, g.2.Pairwise fun a b => a.1 ≤ b.1)
    ∧ ((∀ p ∈ (keptRecords rs).map (·.path),
          (((keptRecords rs).filter fun r => r.path == p).map (·.lineNo)).Nodup) →
        ∀ g ∈ sortedResultFiles rs, g.2.Pairwise fun a b => a.1 < b.1)
    ∧ resultsLines rs = (sortedResultFiles rs).flatMap fun g =>
        g.2.map fun pr => g.1 ++ ":" ++ toString pr.1 ++ ": " ++ pr.2 := by
  refine ⟨?_, ?_, ?_, rfl⟩
  · apply pairwise_sortLe_imp
    · intro a b c hab hbc
      rw [decide_eq_true_eq] at *
      omega
    · intro a b
      rcases Nat.le_total b.2.length a.2.length with h | h
      · exact Or.inl (by rw [decide_eq_true_eq]; exact h)
      · exact Or.inr (by rw [decide_eq_true_eq]; exact h)
    · intro a b h
      rw [decide_eq_true_eq] at h
      exact h
  · intro g hg
    rcases mem_sortedResultFiles hg with ⟨p, _, rfl⟩
    exact sortedPatterns_pairwise_le rs p
  · intro hnd g hg
    rcases mem_sortedResultFiles hg with ⟨p, hmem, rfl⟩
    have hperm : List.Perm (sortedPatterns rs p) (filePatterns rs p) :=
      sortLe_perm _ _
    have hmapnd : ((sortedPatterns rs p).map Prod.fst).Nodup := by
      rw [(hperm.map Prod.fst).nodup_iff]
      have heq : (filePatterns rs p).map Prod.fst
          = ((keptRecords rs).filter fun r => r.path == p).map (·.lineNo) := by
        rw [filePatterns, List.map_map]
        rfl
      rw [heq]
      exact hnd p hmem
    have hne : (sortedPatterns rs p).Pairwise fun a b => a.1 ≠ b.1 :=
      List.pairwise_map.mp hmapnd
    exact ((sortedPatterns_pairwise_le rs p).and hne).imp
      fun h => lt_of_le_of_ne h.1 h.2

/-- C3 counterexample: on the flat record list holding the same genuine
record twice, the single file group carries the duplicated line number, so
the emitted lines are not strictly increasing by line number. -/
theorem results_report_strict_cex :
    sortedResultFiles [⟨0, "f", 1, "x"⟩, ⟨0, "f", 1, "x"⟩] = [("f", [(1, "x"), (1, "x")])]
    ∧ resultsLines [⟨0, "f", 1, "x"⟩, ⟨0, "f", 1, "x"⟩] = ["f:1: x", "f:1: x"]
    ∧ ¬ ([((1 : Int), "x"), ((1 : Int), "x")].Pairwise fun a b => a.1 < b.1) := by
  refine ⟨by decide, ?_, by decide⟩
  rfl

/-- Witness: the amended C3 theorem applied to a three-record list with
distinct line numbers per file, its distinctness hypothesis discharged by
evaluation. -/
theorem results_report_order_witness :
    (∀ p ∈ (keptRecords [⟨0, "f", 2, "y"⟩, ⟨0, "f", 1, "x"⟩, ⟨1, "g", 1, "z"⟩]).map (·.path),
      (((keptRecords [⟨0, "f", 2, "y"⟩, ⟨0, "f", 1, "x"⟩, ⟨1, "g", 1, "z"⟩]).filter
          fun r => r.path == p).map (·.lineNo)).Nodup)
    ∧ (∀ g ∈ sortedResultFiles [⟨0, "f", 2, "y"⟩, ⟨0, "f", 1, "x"⟩, ⟨1, "g", 1, "z"⟩],
        g.2.Pairwise fun a b => a.1 < b.1) :=
  ⟨by decide,
   (results_report_order [⟨0, "f", 2, "y"⟩, ⟨0, "f", 1, "x"⟩, ⟨1, "g", 1, "z"⟩]).2.2.1
     (by decide)⟩

theorem keepRecord_sentinel (wid : Nat) : keepRecord (sentinelRec wid) = false := rfl

theorem keptRecords_sentinel_cons (wid : Nat) (rs : List MatchRec) :
    keptRecords (sentinelRec wid :: rs) = keptRecords rs := by
  rw [keptRecords, keptRecords, List.filter_cons, keepRecord_sentinel]
  simp

theorem resultsLines_congr {rs1 rs2 : List MatchRec}
    (h : keptRecords rs1 = keptRecords rs2) : resultsLines rs1 = resultsLines rs2 := by
  simp only [resultsLines, sortedResultFiles, mapKeys, sortedPatterns, filePatterns, h]

theorem chopLast_append_comma (x : String) : chopLast (x ++ ",") = x := by
  rw [chopLast, String.data_append, show ("," : String).data = [','] from rfl,
    List.dropLast_concat]

theorem writeNames_eq : ∀ (fs : List String), fs ≠ [] → writeNames fs = joinComma fs ++ ","
  | [], h => absurd rfl h
  | [a], _ => by simp [writeNames, joinComma, String.append_empty]
  | a :: b :: t, _ => by
    rw [show writeNames (a :: b :: t) = a ++ "," ++ writeNames (b :: t) from rfl,
      writeNames_eq (b :: t) (by simp),
      show joinComma (a :: b :: t) = a ++ "," ++ joinComma (b :: t) from rfl]
    simp [String.append_assoc]

theorem logLine_eq (w : Nat) (fs : List String) (h : fs ≠ []) :
    logLine w fs = toString w ++ ":" ++ joinComma fs := by
  rw [logLine, writeNames_eq fs h, ← String.append_assoc, chopLast_append_comma]

/-- C4: a worker whose whole subset yields no match returns exactly one
record, the sentinel `(thread_id, "", 0, "")`; the sentinel fails the
results writer's filter, so its presence leaves the results report
unchanged; and a sentinel-only worker's log line is `"<id>:"` — the sentinel
contributes no filename. -/
theorem sentinel_exclusivity (pat : String) (wid : Nat) (files : List FileEntry)
    (rs : List MatchRec) (hnone : ∀ f ∈ files, scanFile pat wid f = []) :
    searchFilesForString pat wid files = [sentinelRec wid]
    ∧ keepRecord (sentinelRec wid) = false
    ∧ resultsLines (sentinelRec wid :: rs) = resultsLines rs
    ∧ logLine wid [""] = toString wid ++ ":" := by
  refine ⟨?_, rfl, resultsLines_congr (keptRecords_sentinel_cons wid rs), ?_⟩
  · rw [searchFilesForString]
    have h : files.flatMap (scanFile pat wid) = [] := List.flatMap_eq_nil_iff.mpr hnone
    simp [h]
  · rw [logLine_eq wid [""] (by simp), show joinComma [""] = "" from rfl,
      String.append_empty]

/-- Witness: a subset of one matchless readable file and one unreadable file
yields exactly the sentinel. -/
theorem sentinel_exclusivity_witness :
    (∀ f ∈ ([("a.txt", some ["bar"]), ("b.txt", none)] : List FileEntry),
        scanFile "foo" 7 f = [])
    ∧ searchFilesForString "foo" 7 [("a.txt", some ["bar"]), ("b.txt", none)]
        = [sentinelRec 7] :=
  ⟨by decide,
   (sentinel_exclusivity "foo" 7 [("a.txt", some ["bar"]), ("b.txt", none)] []
      (by decide)).1⟩

theorem logPairLe_trans (a b c : Nat × List String)
    (hab : logPairLe a b = true) (hbc : logPairLe b c = true) : logPairLe a c = true := by
  rw [logPairLe, logPairLt] at hab hbc ⊢
  cases hA : (a.2.headD "" == "") <;> cases hB : (b.2.headD "" == "") <;>
    cases hC : (c.2.headD "" == "") <;>
    simp_all [bne] <;> omega

theorem logPairLe_total (a b : Nat × List String) :
    logPairLe a b = true ∨ logPairLe b a = true := by
  rw [logPairLe, logPairLt, logPairLe, logPairLt]
  cases hA : (a.2.headD "" == "") <;> cases hB : (b.2.headD "" == "") <;>
    simp_all [bne] <;> omega

theorem headD_of_clean {fs : List String} (h1 : "" ∉ fs) (h2 : fs ≠ []) :
    (fs.headD "" == "") = false := by
  rcases List.exists_cons_of_ne_nil h2 with ⟨x, t, rfl⟩
  rw [show (x :: t).headD "" = x from rfl, beq_eq_false_iff_ne]
  intro he
  exact h1 (he ▸ List.mem_cons_self x t)

/-- C6: under the pipeline invariant that every worker group is either the
sentinel-only group `[""]` or a non-empty group of real file names, the
sorted log pairs place every sentinel-only (file-less) worker after all
workers with files, order workers with files by non-increasing file count,
and each line renders as `"<id>:" ++ files joined by commas with no trailing
separator`. -/
theorem log_report_order (rs : List MatchRec)
    (hinv : ∀ g ∈ threadFilePairs rs, g.2 = [""] ∨ ("" ∉ g.2 ∧ g.2 ≠ [])) :
    ((logSortedPairs rs).Pairwise fun a b =>
        (a.2 = [""] → b.2 = [""])
        ∧ (a.2 ≠ [""] → b.2 ≠ [""] → b.2.length ≤ a.2.length))
    ∧ (∀ g ∈ logSortedPairs rs, logLine g.1 g.2 = toString g.1 ++ ":" ++ joinComma g.2)
    ∧ logLines rs = (logSortedPairs rs).map fun g => logLine g.1 g.2 := by
  have hsorted := sortLe_pairwise logPairLe_trans logPairLe_total (threadFilePairs rs)
  refine ⟨?_, ?_, rfl⟩
  · refine List.Pairwise.imp_of_mem ?_ hsorted
    intro a b ha hb hab
    rw [logSortedPairs, mem_sortLe] at ha hb
    rcases hinv a ha with hA | ⟨hA1, hA2⟩
    · rcases hinv b hb with hB | ⟨hB1, hB2⟩
      · exact ⟨fun _ => hB, fun hna => absurd hA hna⟩
      · exfalso
        rcases List.exists_cons_of_ne_nil hB2 with ⟨x, t, hbt⟩
        have hx : x ≠ "" := fun he => hB1 (by rw [hbt, he]; exact List.mem_cons_self _ _)
        have hfalse : logPairLe a b = false := by
          rw [logPairLe, logPairLt, hA, hbt]
          simp [bne, hx]
        simp [hfalse] at hab
    · have hAne : a.2 ≠ [""] := by
        intro he
        exact hA1 (he ▸ List.mem_cons_self "" [])
      rcases hinv b hb with hB | ⟨hB1, hB2⟩
      · refine ⟨fun he => absurd he hAne, fun _ hnb => absurd hB hnb⟩
      · rcases List.exists_cons_of_ne_nil hA2 with ⟨xa, ta, hat⟩
        have hxa : xa ≠ "" := fun he => hA1 (by rw [hat, he]; exact List.mem_cons_self _ _)
        rcases List.exists_cons_of_ne_nil hB2 with ⟨xb, tb, hbt⟩
        have hxb : xb ≠ "" := fun he => hB1 (by rw [hbt, he]; exact List.mem_cons_self _ _)
        have hle : b.2.length ≤ a.2.length := by
          rw [logPairLe, logPairLt, hat, hbt] at hab
          simp [bne, hxa, hxb] at hab
          rw [hat, hbt]
          simp only [List.length_cons]
          omega
        exact ⟨fun he => absurd he hAne, fun _ _ => hle⟩
  · intro g hg
    rw [logSortedPairs, mem_sortLe] at hg
    rcases hinv g hg with hG | ⟨_, hG2⟩
    · rw [hG]
      exact logLine_eq g.1 [""] (by simp)
    · exact logLine_eq g.1 g.2 hG2

/-- Witness: the log-order theorem applied to one worker with a real match
and one sentinel-only worker. -/
theorem log_report_order_witness :
    (∀ g ∈ threadFilePairs [⟨0, "a.txt", 1, "foo"⟩, ⟨1, "", 0, ""⟩],
        g.2 = [""] ∨ ("" ∉ g.2 ∧ g.2 ≠ []))
    ∧ ((logSortedPairs [⟨0, "a.txt", 1, "foo"⟩, ⟨1, "", 0, ""⟩]).Pairwise fun a b =>
        (a.2 = [""] → b.2 = [""])
        ∧ (a.2 ≠ [""] → b.2 ≠ [""] → b.2.length ≤ a.2.length)) :=
  ⟨by decide, (log_report_order [⟨0, "a.txt", 1, "foo"⟩, ⟨1, "", 0, ""⟩] (by decide)).1⟩

theorem logGroup_count (w : Nat) (p : String) :
    ∀ rs : List MatchRec, (logGroup rs w).count p
      = (rs.filter fun r => r.wid == w && r.path == p).length
  | [] => rfl
  | r :: rs => by
    have ih := logGroup_count w p rs
    simp only [logGroup] at ih ⊢
    rw [List.filter_cons, List.filter_cons]
    cases hw : (r.wid == w) <;> cases hp : (r.path == p)
    · simp only [Bool.false_and, if_false, cond_false]
      simp [ih]
    · simp only [Bool.false_and, if_false]
      simp [ih]
    · simp [hw, hp, List.count_cons, ih]
    · simp [hw, hp, List.count_cons, ih]

/-- C7 counterexample: a worker assigned the single file `a.txt`, which has
two matching lines, gets a log line listing `a.txt` twice — the log report
lists one entry per match record, not one entry per assigned file. -/
theorem log_lists_assigned_files_cex :
    searchFilesForString "foo" 0 [("a.txt", some ["foo", "foo"])]
      = [⟨0, "a.txt", 1, "foo"⟩, ⟨0, "a.txt", 2, "foo"⟩]
    ∧ logLines (searchFilesForString "foo" 0 [("a.txt", some ["foo", "foo"])])
      = ["0:a.txt,a.txt"]
    ∧ ¬ ((logGroup (searchFilesForString "foo" 0 [("a.txt", some ["foo", "foo"])]) 0).count
          "a.txt" = 1) := by
  refine ⟨by decide, ?_, by decide⟩
  rfl

/-- C7 (amended): a worker's group in the log report is exactly the
`file_path` of each of the worker's records, in record order — one entry per
match record, so a file appears once per matching line, a readable file with
no matching line contributes nothing, and a matchless worker contributes
only its sentinel's empty path. -/
theorem log_group_lists_record_paths (rs : List MatchRec) (w : Nat) (p : String) :
    ((w, logGroup rs w) ∈ threadFilePairs rs ↔ w ∈ rs.map (·.wid))
    ∧ logGroup rs w = (rs.filter fun r => r.wid == w).map (·.path)
    ∧ (logGroup rs w).count p = (rs.filter fun r => r.wid == w && r.path == p).length := by
  refine ⟨⟨?_, ?_⟩, rfl, logGroup_count w p rs⟩
  · intro h
    rcases List.mem_map.mp h with ⟨w2, hw2, heq⟩
    have hw : w2 = w := congrArg Prod.fst heq
    rw [logWids, mem_sortLe, List.mem_dedup] at hw2
    rw [← hw]
    exact hw2
  · intro h
    have hw : w ∈ logWids rs := by
      rw [logWids, mem_sortLe, List.mem_dedup]
      exact h
    exact List.mem_map_of_mem (fun w => (w, logGroup rs w)) hw

/-- C5: what the code actually does on the three thread-count argument
shapes the claim names.  `-t abc` throws in `std::stoi`, is caught, and the
run exits 1 with nothing written — but `-t -3` parses successfully, spawns
no worker (the loop bound is negative), writes both reports (empty) and the
console summary, and exits 0; `-t 0` reaches the division
`files_to_search.size() / 0` — undefined behaviour (`none`) — instead of an
exit with status 1.  The code has no `thread_cnt <= 0` check. -/
theorem invalid_thread_count_behavior :
    runMainModel "foo" [("a.txt", some ["foo"])] (some "abc") none none true true
      = some ⟨1, none, none, ["Error: invalid thread count"]⟩
    ∧ runMainModel "foo" [("a.txt", some ["foo"])] (some "-3") none none true true
      = some ⟨0, some [], some [], []⟩
    ∧ runMainModel "foo" [("a.txt", some ["foo"])] (some "0") none none true true = none
    ∧ stoiModel "-3" = some (-3) ∧ stoiModel "0" = some 0 :=
  ⟨rfl, rfl, rfl, rfl, rfl⟩

/-- C8 counterexample: with the results file unopenable the run still writes
the log report and exits 0, not 1 — the open failure is not fatal and does
not suppress the other output file. -/
theorem output_open_failure_cex :
    runMainModel "foo" [("a.txt", some ["foo"])] none none none false true
      = some ⟨0, none, some ["3:a.txt", "0:", "1:", "2:"],
          ["Could not open output file"]⟩
    ∧ ¬ ((runMainModel "foo" [("a.txt", some ["foo"])] none none none false true).map
          Outcome.exitCode = some 1) := by
  have h : runMainModel "foo" [("a.txt", some ["foo"])] none none none false true
      = some ⟨0, none, some ["3:a.txt", "0:", "1:", "2:"],
          ["Could not open output file"]⟩ := rfl
  refine ⟨h, ?_⟩
  rw [h]
  decide

/-- C8 (amended): when an output file cannot be opened for writing, the
writer prints a one-line diagnostic to the error stream and returns; `main`
continues, still writes whichever report could be opened, prints the
summary, and exits with status 0 — the failure is per-report, never fatal to
the process. -/
theorem output_open_failure_behavior (pat : String) (files : List FileEntry)
    (cr cl : Bool) :
    runMainModel pat files none none none cr cl
      = some ⟨0,
          if cr then some (resultsLines (searchDirectoryRecords pat files 4)) else none,
          if cl then some (logLines (searchDirectoryRecords pat files 4)) else none,
          (if cr then [] else ["Could not open output file"])
            ++ (if cl then [] else ["Unable to open file for writing: specific_grep"])⟩ := by
  cases cr <;> cases cl <;> rfl

theorem isInvalidChar_false_iff (c : Char) :
    isInvalidChar c = false ↔ allowedCharSpec c := by
  have hval : ∀ a b : UInt32, (a ≤ b) ↔ a.toNat ≤ b.toNat := fun a b => Iff.rfl
  simp only [isInvalidChar, isWordChar, Char.isAlpha, Char.isUpper, Char.isLower,
    Char.isDigit, allowedCharSpec, Bool.not_eq_false', Bool.or_eq_true, Bool.and_eq_true,
    decide_eq_true_eq, beq_iff_eq, ge_iff_le, hval, UInt32.toNat_ofNat, Char.toNat]
  norm_num
  tauto

/-- C9: `isValidFilename` accepts a name iff every character lies in
`[A-Za-z0-9_\x2d. ]`, and a rejected name passed as the log or result
filename makes the run exit with status 1 before anything is written. -/
theorem filename_validation (s : String) :
    (isValidFilename s = true ↔ ∀ c ∈ s.data, allowedCharSpec c)
    ∧ (∀ pat files tArg rArg cr cl, isValidFilename s = false →
        runMainModel pat files tArg (some s) rArg cr cl
          = some ⟨1, none, none, ["Error: invalid log filename"]⟩)
    ∧ (∀ pat files tArg cr cl, isValidFilename s = false →
        runMainModel pat files tArg none (some s) cr cl
          = some ⟨1, none, none, ["Error: invalid result filename"]⟩) := by
  refine ⟨?_, ?_, ?_⟩
  · simp only [isValidFilename, Bool.not_eq_true', List.any_eq_false]
    constructor
    · intro h c hc
      exact (isInvalidChar_false_iff c).mp (Bool.eq_false_iff.mpr (h c hc))
    · intro h c hc
      exact Bool.eq_false_iff.mp ((isInvalidChar_false_iff c).mpr (h c hc))
  · intro pat files tArg rArg cr cl hval
    rw [runMainModel]
    simp [hval]
  · intro pat files tArg cr cl hval
    rw [runMainModel]
    simp [hval]
    rfl

/-- Witness: the filename theorem applied to `"a/b"`, whose slash is outside
the allowed class. -/
theorem filename_validation_witness :
    isValidFilename "a/b" = false
    ∧ runMainModel "x" [] none (some "a/b") none true true
      = some ⟨1, none, none, ["Error: invalid log filename"]⟩ :=
  ⟨by decide, (filename_validation "a/b").2.1 "x" [] none none true true (by decide)⟩

/-- C10: the results writer keeps a record iff its `file_path` is non-empty,
its `line_number` non-zero, and its `line_text` non-empty — and consequently
the genuine match record that the empty search string produces for an empty
line (line text `""`) is silently dropped from the results report. -/
theorem results_writer_filter (rs : List MatchRec) (r : MatchRec) (wid : Nat) :
    (r ∈ keptRecords rs ↔ r ∈ rs ∧ r.path ≠ "" ∧ r.lineNo ≠ 0 ∧ r.text ≠ "")
    ∧ searchFilesForString "" wid [("f", some [""])] = [⟨wid, "f", 1, ""⟩]
    ∧ resultsLines [⟨wid, "f", 1, ""⟩] = [] := by
  refine ⟨?_, rfl, rfl⟩
  rw [keptRecords]
  simp [List.mem_filter, keepRecord, bne_iff_ne, and_assoc]

end SpecificGrep
